import Mathlib

/-!
Verification of the PGBART Particle-Gibbs sampler for Bayesian Additive
Regression Trees (file pymc/bart/pgbart.py).

The embedding is shallow: NumPy float arrays become lists of rationals (with
an explicit extended-float type `EF` carrying plus/minus infinity and NaN for
the code paths where IEEE special values matter), the design matrix becomes a
function from row and column indices to `Option ℚ` (`none` models a NaN
entry), and every random draw consumed by the code (the splitting-variable
draw, the split-value index, the cached standard-normal draws) becomes an
explicit argument, so each source function is a deterministic function of its
inputs and its consumed draws.  The logarithm and exponential of the
weight-normalization step are modelled over the real numbers.
-/

namespace Pgbart

/-- Extended float value: a finite rational, plus or minus infinity, or NaN.
Models the IEEE special values produced by NumPy in the degenerate
configurations (division by a zero sum, log of zero, mean of an empty
array). -/
inductive EF where
  | fin : ℚ → EF
  | pinf : EF
  | ninf : EF
  | nan : EF
deriving DecidableEq

/-- IEEE addition on extended floats: NaN is absorbing, opposite infinities
give NaN, an infinity absorbs finite values. -/
def EF.add : EF → EF → EF
  | .nan, _ => .nan
  | _, .nan => .nan
  | .pinf, .ninf => .nan
  | .ninf, .pinf => .nan
  | .pinf, _ => .pinf
  | _, .pinf => .pinf
  | .ninf, _ => .ninf
  | _, .ninf => .ninf
  | .fin a, .fin b => .fin (a + b)

/-- IEEE multiplication on extended floats: NaN is absorbing, zero times an
infinity gives NaN. -/
def EF.mul : EF → EF → EF
  | .nan, _ => .nan
  | _, .nan => .nan
  | .fin a, .fin b => .fin (a * b)
  | .pinf, .fin b => if b = 0 then .nan else if 0 < b then .pinf else .ninf
  | .fin a, .pinf => if a = 0 then .nan else if 0 < a then .pinf else .ninf
  | .ninf, .fin b => if b = 0 then .nan else if 0 < b then .ninf else .pinf
  | .fin a, .ninf => if a = 0 then .nan else if 0 < a then .ninf else .pinf
  | .pinf, .pinf => .pinf
  | .ninf, .ninf => .pinf
  | .pinf, .ninf => .ninf
  | .ninf, .pinf => .ninf

/-- IEEE division on extended floats: 0/0 gives NaN, a nonzero finite value
divided by zero gives a signed infinity (NumPy emits a warning, not an
error), a finite value divided by an infinity gives 0, infinity over
infinity gives NaN. -/
def EF.div : EF → EF → EF
  | .nan, _ => .nan
  | _, .nan => .nan
  | .fin a, .fin b =>
      if b = 0 then (if a = 0 then .nan else if 0 < a then .pinf else .ninf)
      else .fin (a / b)
  | .fin _, .pinf => .fin 0
  | .fin _, .ninf => .fin 0
  | .pinf, .fin b => if b < 0 then .ninf else .pinf
  | .ninf, .fin b => if b < 0 then .pinf else .ninf
  | .pinf, .pinf => .nan
  | .pinf, .ninf => .nan
  | .ninf, .pinf => .nan
  | .ninf, .ninf => .nan

/-- IEEE comparison `a <= b` on extended floats: any comparison against NaN
is false (this is how NumPy evaluates `r <= v` when `v` is NaN). -/
def EF.le : EF → EF → Bool
  | .nan, _ => false
  | _, .nan => false
  | .ninf, _ => true
  | _, .pinf => true
  | .pinf, _ => false
  | _, .ninf => false
  | .fin a, .fin b => decide (a ≤ b)

/-- Running sums of a list of extended floats starting from the given
accumulator; `np.cumsum` is `cumsumEF_from (EF.fin 0)`. -/
def cumsumEF_from (acc : EF) : List EF → List EF
  | [] => []
  | x :: xs => (acc.add x) :: cumsumEF_from (acc.add x) xs

/-- Model of `np.cumsum` over extended floats. -/
def cumsumEF (l : List EF) : List EF := cumsumEF_from (.fin 0) l

/-- Running sums of a list of rationals starting from the given
accumulator. -/
def cumsumQ_from (acc : ℚ) : List ℚ → List ℚ
  | [] => []
  | x :: xs => (acc + x) :: cumsumQ_from (acc + x) xs

/-- Exact-arithmetic cumulative sums, the NaN-free image of `cumsumEF`. -/
def cumsumQ (l : List ℚ) : List ℚ := cumsumQ_from 0 l

/-- Model of `np.mean`: the mean of an empty array is NaN (NumPy computes
0.0/0 and warns), otherwise the exact mean. -/
def meanEF (l : List ℚ) : EF :=
  if l.length = 0 then .nan else .fin (l.sum / l.length)

/-! ### compute_prior_probability

Source lines 366-389.  The loop `while prior_leaf_prob[-1] < 1: append
(1 - alpha ** depth)` terminates only through floating-point rounding of
`alpha ** depth` to zero; in the exact-arithmetic embedding the loop is given
an explicit iteration budget `fuel`, and each theorem about the table holds
for every budget. -/

/-- One-to-one model of the `while` loop of `compute_prior_probability`:
while the last entry is below 1 (and fuel remains), append `1 - alpha ^
depth` and increment `depth`. -/
def priorLoop (alpha : ℚ) : ℕ → ℕ → List ℚ → List ℚ
  | 0, _, acc => acc
  | fuel + 1, depth, acc =>
      if acc.getLastD 0 < 1 then
        priorLoop alpha fuel (depth + 1) (acc ++ [1 - alpha ^ depth])
      else acc

/-- Model of `compute_prior_probability`: the table starts as `[0]` and the
loop starts at depth 1. -/
def compute_prior_probability (alpha : ℚ) (fuel : ℕ) : List ℚ :=
  priorLoop alpha fuel 1 [0]

/-! ### SampleSplittingVariable

Source lines 349-363.  `__init__` stores `enu = list(enumerate(np.cumsum(
alpha_vec / alpha_vec.sum())))`; `rvs` draws `r` uniform in `[0,1)` and
returns the first index whose cumulative value is at least `r`, falling off
the loop (returning no index) when no entry compares true — which happens
when the cumulative values are NaN.  The uniform draw `r` is an explicit
argument. -/

structure SampleSplittingVariable where
  enu : List (ℕ × EF)
deriving DecidableEq

/-- Model of `SampleSplittingVariable.__init__`: divide the weight vector by
its sum (IEEE semantics: a zero sum produces NaN or infinite entries, not an
error), take cumulative sums and enumerate. -/
def SampleSplittingVariable.init (alpha_vec : List ℚ) : SampleSplittingVariable :=
  ⟨(cumsumEF (alpha_vec.map (fun a => EF.div (.fin a) (.fin alpha_vec.sum)))).enum⟩

/-- The loop of `rvs`: `for i, v in self.enu: if r <= v: return i`.  A Python
function that falls off the end returns `None`, modelled as `none`. -/
def rvsLoop (r : ℚ) : List (ℕ × EF) → Option ℕ
  | [] => none
  | (i, v) :: rest => if EF.le (.fin r) v then some i else rvsLoop r rest

/-- Model of `SampleSplittingVariable.rvs` with the uniform draw `r` as an
explicit argument. -/
def SampleSplittingVariable.rvs (s : SampleSplittingVariable) (r : ℚ) : Option ℕ :=
  rvsLoop r s.enu

/-! ### draw_leaf_value and fast_linear_fit

Source lines 484-501 and 522-545.  The normal draw `normal.random()` is an
explicit argument `norm_draw`; `response` is the tag already resolved by
`grow_tree` (the source resolves `"mix"` before calling).  In the linear
branch the fitted value is a vector, so the returned value is a sum type. -/

inductive Response where
  | constant : Response
  | linear : Response
  | mix : Response
deriving DecidableEq

/-- A leaf value: a scalar for the empty, single-residual and constant
branches, a per-row vector for the linear branch (the source's
`draw = norm + mu_mean` broadcasts over `Y_fit`). -/
inductive LeafValue where
  | scalar : ℚ → LeafValue
  | vector : List ℚ → LeafValue
deriving DecidableEq

/-- Dot product `X @ Y` of two equal-length vectors. -/
def dotQ (X Y : List ℚ) : ℚ := (List.zipWith (· * ·) X Y).sum

/-- Model of the `linear_fit` closure of `fast_linear_fit`: ordinary least
squares of `Y` on `X` with the slope forced to 0 when the variance term
`den` is at most `1e-10`; returns the fitted values and the parameter list
`[a, b, 0]`. -/
def linear_fit (X Y : List ℚ) : List ℚ × (ℚ × ℚ × ℚ) :=
  let n : ℚ := Y.length
  let xbar := X.sum / n
  let ybar := Y.sum / n
  let den := dotQ X X - n * xbar ^ 2
  let b := if den > 1 / 10 ^ 10 then (dotQ X Y - n * xbar * ybar) / den else 0
  let a := ybar - b * xbar
  (X.map (fun x => a + b * x), (a, b, 0))

/-- The result of `draw_leaf_value` together with whether the call consumed a
draw from the normal-sample cache (the source calls `normal.random()` on
every branch with a nonempty residual vector, before any size test beyond
emptiness). -/
structure DrawResult where
  value : LeafValue
  linear_params : Option (ℚ × ℚ × ℚ)
  consumed_normal : Bool
deriving DecidableEq

/-- Model of `draw_leaf_value`.  `Y_mu_pred` are the residuals routed to the
node, `X_mu` the selected predictor column on those rows, `m` the number of
trees, `norm_draw` the standard-normal draw that `normal.random()` would
return, `mu_std` the precomputed noise scale.  A `mix` response reaching this
function is unbound-variable behaviour in the source (grow_tree resolves the
mix before calling), modelled as `none`. -/
def draw_leaf_value (Y_mu_pred X_mu : List ℚ) (m : ℚ) (norm_draw mu_std : ℚ)
    (response : Response) : Option DrawResult :=
  if Y_mu_pred.length = 0 then some ⟨.scalar 0, none, false⟩
  else
    let norm := norm_draw * mu_std
    if Y_mu_pred.length = 1 then
      some ⟨.scalar (norm + Y_mu_pred.headD 0 / m), none, true⟩
    else
      match response with
      | .constant => some ⟨.scalar (norm + (Y_mu_pred.sum / Y_mu_pred.length) / m), none, true⟩
      | .linear =>
          let fit := linear_fit X_mu Y_mu_pred
          some ⟨.vector (fit.1.map (fun y => norm + y / m)), some (fit.2.1, fit.2.2.1, norm), true⟩
      | .mix => none

/-! ### grow_tree and get_new_idx_data_points

Source lines 392-481.  The design matrix is a function `X : row → column →
Option ℚ` with `none` modelling a NaN entry.  The splitting-variable draw
has already selected `selected_predictor`, and `split_draw` is the value of
`discrete_uniform_sampler(len(available_splitting_values))`, an index into
the candidate list.  The returned `GrowOutcome` carries the data the
partition claims are about: the chosen split value and the two children's
routed row-index lists; the two `draw_leaf_value` calls (lines 437-456)
consume the partitioned residuals and do not change these lists. -/

/-- NumPy comparison of a possibly-NaN cell against a possibly-NaN split
value: any comparison involving NaN is false. -/
def npLe (x v : Option ℚ) : Bool :=
  match x, v with
  | some a, some b => decide (a ≤ b)
  | _, _ => false

/-- Model of `get_new_idx_data_points`: the boolean mask
`X[idx_data_points, selected_predictor] <= split_value` selects the left
child's rows, its complement the right child's rows. -/
def get_new_idx_data_points (split_value : Option ℚ) (idx_data_points : List ℕ)
    (selected_predictor : ℕ) (X : ℕ → ℕ → Option ℚ) : List ℕ × List ℕ :=
  (idx_data_points.filter (fun i => npLe (X i selected_predictor) split_value),
   idx_data_points.filter (fun i => !npLe (X i selected_predictor) split_value))

/-- What a successful `grow_tree` reports about the split: the split value,
the routed row-index lists of the two new leaves, and the selected
predictor. -/
structure GrowOutcome where
  split_value : Option ℚ
  left_idx : List ℕ
  right_idx : List ℕ
  selected_predictor : ℕ
deriving DecidableEq

/-- Model of `grow_tree` up to the partition of the routed rows: gather the
routed rows' values on the selected predictor; when `missing_data` filter
the NaN rows out of both the candidate values and (crucially) the local
`idx_data_points`; abort with no growth when no candidate value remains;
otherwise pick the candidate at `split_draw` and partition the (filtered)
routed rows with `get_new_idx_data_points`.  `none` models the source's
`return False, None`, on which the tree is not mutated (the mutation
`tree.grow_tree(...)` happens only on the success path). -/
def grow_tree (X : ℕ → ℕ → Option ℚ) (missing_data : Bool) (idx_data_points : List ℕ)
    (selected_predictor : ℕ) (split_draw : ℕ) : Option GrowOutcome :=
  let available_splitting_values := idx_data_points.map (fun i => X i selected_predictor)
  let idx_filtered :=
    if missing_data then idx_data_points.filter (fun i => (X i selected_predictor).isSome)
    else idx_data_points
  let avail_filtered :=
    if missing_data then available_splitting_values.filter (fun v => v.isSome)
    else available_splitting_values
  if avail_filtered.length = 0 then none
  else
    let split_value := avail_filtered.getD split_draw none
    let lr := get_new_idx_data_points split_value idx_filtered selected_predictor X
    some ⟨split_value, lr.1, lr.2, selected_predictor⟩

/-- A concrete design matrix with a missing entry: row 0 has value 1 on
every predictor, every other row is NaN throughout. -/
def Xmiss : ℕ → ℕ → Option ℚ := fun i _ => if i = 0 then some 1 else none

/-- A concrete design matrix whose every entry is 5: all routed rows have
identical values on every predictor. -/
def Xconst : ℕ → ℕ → Option ℚ := fun _ _ => some 5

/-- A concrete fully observed design matrix: row 0 holds 1, every other row
holds 2, on every predictor. -/
def Xtwo : ℕ → ℕ → Option ℚ := fun i _ => if i = 0 then some 1 else some 2

/-! ### ParticleTree weight bookkeeping

Source lines 35-45 (the particle's fields), 311-330 (`init_particles`
resetting the reference particle's weight and likelihood), 332-346
(`update_weight`) and 261-270 (the commit step of `astep`).  The likelihood
value `likelihood_logp(sum_trees_output_noi + tree.predict_output())` is an
explicit argument wherever the source evaluates it. -/

structure ParticleTree where
  expansion_nodes : List ℕ
  log_weight : ℚ
  old_likelihood_logp : ℚ
  used_variates : List ℕ
deriving DecidableEq

/-- Model of the reset `init_particles` applies to the stored particle of
the tree being updated: `p.log_weight = self.init_log_weight;
p.old_likelihood_logp = self.init_likelihood`. -/
def init_particle_reset (init_log_weight init_likelihood : ℚ) (p : ParticleTree) :
    ParticleTree :=
  { p with log_weight := init_log_weight, old_likelihood_logp := init_likelihood }

/-- Model of `PGBART.update_weight` with the freshly evaluated log-likelihood
as an argument: with `new = true` (used once for the reference particle) only
`log_weight` is overwritten — `old_likelihood_logp` is left as it was; with
`new = false` the weight is updated additively and `old_likelihood_logp`
records the new evaluation. -/
def update_weight (new_likelihood : ℚ) (new : Bool) (p : ParticleTree) : ParticleTree :=
  if new then { p with log_weight := new_likelihood }
  else
    { p with
      log_weight := p.log_weight + (new_likelihood - p.old_likelihood_logp),
      old_likelihood_logp := new_likelihood }

/-- Model of the commit line of `astep`:
`new_particle.log_weight = new_particle.old_likelihood_logp -
self.log_num_particles`. -/
def commit_log_weight (log_num_particles : ℚ) (p : ParticleTree) : ParticleTree :=
  { p with log_weight := p.old_likelihood_logp - log_num_particles }

/-! ### The SMC round loop's termination check

Source lines 222-259.  After the body of each round the source builds
`non_available_nodes_for_expansion`, appending a literal `0` for every
particle after the first whose expansion queue is nonempty, and breaks when
`all(...)` of that list is true — Python's `all` of an empty list is `True`
and `0` is falsy, so the loop breaks exactly when the list is empty. -/

/-- Model of building `non_available_nodes_for_expansion`: one `0` appended
per nonempty queue among the given ones. -/
def non_available_nodes_for_expansion (queues : List (List ℕ)) : List ℕ :=
  queues.foldl (fun acc q => if q.isEmpty then acc else acc ++ [0]) []

/-- Python's `all` over a list of ints: true when every element is truthy
(nonzero). -/
def pyAll (l : List ℕ) : Bool := l.all (fun x => decide (x ≠ 0))

/-- The `break` condition of `astep`'s round loop, taking the particle list
of the sweep: the queues inspected are those of `particles[1:]`. -/
def stop_early (particles : List ParticleTree) : Bool :=
  pyAll (non_available_nodes_for_expansion ((particles.drop 1).map (·.expansion_nodes)))

/-- Model of `for t in range(max_stages): ...body...; if <stop>: break` over
an abstract sweep state: run the body, then stop if the condition holds on
the new state; also return how many rounds were executed. -/
def roundLoop {σ : Type} (body : σ → σ) (stop : σ → Bool) : ℕ → σ → σ × ℕ
  | 0, s => (s, 0)
  | fuel + 1, s =>
      let s1 := body s
      if stop s1 then (s1, 1)
      else
        let rest := roundLoop body stop fuel s1
        (rest.1, rest.2 + 1)

/-! ### PGBART.normalize

Source lines 295-309.  The arithmetic here is the log-sum-exp trick, so this
one component is modelled over the real numbers with `Real.exp` and
`Real.log`; a real number models a finite float, which also captures the
claim's "finite, non-all-negative-infinity" proviso. -/

/-- Model of `log_w.max()` for a nonempty array (NumPy raises on an empty
array; `normalize` is only called on nonempty particle slices). -/
noncomputable def npMax (l : List ℝ) : ℝ := l.foldl max (l.headD 0)

/-- Model of `PGBART.normalize`: subtract the max, exponentiate, sum,
recover `W_t = max + log(sum) - log(num_particles)`, divide by the sum and
nudge every entry by `1e-12`. -/
noncomputable def PGBART.normalize (log_num_particles : ℝ) (log_w : List ℝ) :
    ℝ × List ℝ :=
  let log_w_max := npMax log_w
  let w_ := log_w.map (fun x => Real.exp (x - log_w_max))
  let w_sum := w_.sum
  let W_t := log_w_max + Real.log w_sum - log_num_particles
  let normalized_weights := w_.map (fun x => x / w_sum + 1 / 10 ^ 12)
  (W_t, normalized_weights)

/-! ### PGBART.__init__

Source lines 128-205.  The body of `__init__` contains no `raise` and no
`assert`: it computes derived state (warning-emitting IEEE arithmetic
included) and returns.  The model is `Except`-valued so that "fatal at
construction" is statable, it mirrors the assignments feeding the
configuration values the error-handling claim names, and `np.log`, `np.std`
and the square root, which are irrational-valued external primitives, are
arguments of the model (`log_fn`, `std_fn`, `sqrt_fn`); the theorems pin
their values only where NumPy's documented IEEE behaviour is at stake
(`np.log(0) = -inf`, `np.std([]) = nan`). -/

/-- Model of `np.unique` on a 1-D array: sorted distinct values. -/
def npUnique (Y : List ℚ) : List ℚ := Y.dedup.insertionSort (· ≤ ·)

/-- Model of Python's `list(range(lo, hi))` over machine integers. -/
def rangeZ (lo hi : ℤ) : List ℤ := (List.range (hi - lo).toNat).map (fun i => lo + i)

/-- The constructor arguments of `PGBART.__init__` that the
configuration-error claim concerns (the model and step-method plumbing are
external collaborators). -/
structure InitConfig where
  X : List (List (Option ℚ))
  Y : List ℚ
  m : ℕ
  k : ℚ
  num_particles : ℤ
  alpha_vec : List ℚ
deriving DecidableEq

/-- The fields of the constructed sampler state that the degenerate
configurations of the error-handling claim reach. -/
structure InitState where
  missing_data : Bool
  init_mean : EF
  mu_std : EF
  num_observations : ℕ
  num_variates : ℕ
  log_num_particles : EF
  indices : List ℤ
  ssv : SampleSplittingVariable
deriving DecidableEq

/-- Model of `PGBART.__init__` on the configuration-dependent state: detect
missing data, take the response mean (NaN on empty data), compute the noise
scale (the binary-response test compares `np.unique(Y)` with `[0, 1]`),
record the observation and predictor counts, take `np.log(num_particles)`
(−inf at zero, NaN below — a warning in NumPy, not an error), build
`indices = list(range(1, num_particles))` and the splitting-variable sampler
(whose cdf is NaN when the weights sum to zero).  No input is rejected: the
source body raises nothing. -/
def PGBART.init (log_fn : ℤ → EF) (std_fn : List ℚ → EF) (sqrt_fn : ℕ → EF)
    (cfg : InitConfig) : Except Unit InitState :=
  let missing_data := cfg.X.any (fun row => row.any (fun c => c.isNone))
  let init_mean := meanEF cfg.Y
  let denom := EF.mul (.fin cfg.k) (sqrt_fn cfg.m)
  let mu_std :=
    if npUnique cfg.Y = [0, 1] then EF.div (.fin 6) denom
    else EF.div (EF.mul (.fin 2) (std_fn cfg.Y)) denom
  let num_observations := cfg.X.length
  let num_variates := (cfg.X.headD []).length
  let log_num_particles := log_fn cfg.num_particles
  let indices := rangeZ 1 cfg.num_particles
  let ssv := SampleSplittingVariable.init cfg.alpha_vec
  Except.ok
    { missing_data := missing_data
      init_mean := init_mean
      mu_std := mu_std
      num_observations := num_observations
      num_variates := num_variates
      log_num_particles := log_num_particles
      indices := indices
      ssv := ssv }

/-- A concrete stand-in for `np.log` agreeing with IEEE semantics on the
nonpositive arguments the degenerate configurations reach: `log 0 = -inf`,
`log` of a negative number is NaN. -/
def logStub : ℤ → EF := fun n => if n = 0 then .ninf else if n < 0 then .nan else .fin 0

/-- A concrete stand-in for `np.std` agreeing with IEEE semantics on the
empty array: `std([]) = nan`. -/
def stdStub : List ℚ → EF := fun l => if l = [] then .nan else .fin 0

/-- A concrete stand-in for the square root used by the noise scale. -/
def sqrtStub : ℕ → EF := fun _ => .fin 1

/-! ## Theorems -/

/-- Claim C2 (amended): for a single residual `r`, `draw_leaf_value` returns
the scalar `norm_draw * mu_std + r / m` with no linear params — the noise
term is added and one standard-normal draw is consumed (the source computes
`norm = normal.random() * mu_std` before the size-1 test and returns
`norm + mu_mean`); the result equals `r / m` only when the drawn noise times
`mu_std` is zero. -/
theorem draw_leaf_value_single_residual (r : ℚ) (X_mu : List ℚ)
    (m norm_draw mu_std : ℚ) (response : Response) :
    draw_leaf_value [r] X_mu m norm_draw mu_std response =
      some ⟨.scalar (norm_draw * mu_std + r / m), none, true⟩ := by
  simp [draw_leaf_value]

/-- Claim C2 counterexample: with residual 3, `m = 2`, noise scale 1 and a
normal draw of 1, `draw_leaf_value` returns `5/2`, not `3/2 = r/m`, and the
consumed-draw flag is set: the return is neither exactly `r/m` nor
deterministic. -/
theorem draw_leaf_value_single_residual_noise :
    draw_leaf_value [3] [] 2 1 1 .constant = some ⟨.scalar (5 / 2), none, true⟩ ∧
      (5 / 2 : ℚ) ≠ 3 / 2 := by
  refine ⟨?_, by norm_num⟩
  simp only [draw_leaf_value]
  norm_num

/-- A successful `grow_tree` and a no-growth return are separated exactly by
the emptiness test on the candidate list. -/
theorem grow_tree_eq_none_iff (X : ℕ → ℕ → Option ℚ) (md : Bool)
    (idx : List ℕ) (p k : ℕ) :
    grow_tree X md idx p k = none ↔
      (if md = true then (idx.map fun i => X i p).filter (fun v => v.isSome)
       else idx.map fun i => X i p).length = 0 := by
  by_cases h :
      (if md = true then (idx.map fun i => X i p).filter (fun v => v.isSome)
       else idx.map fun i => X i p).length = 0
  · simp [grow_tree, h]
  · simp [grow_tree, h]

/-- Claim C3 (amended): `grow_tree` reports no growth (and therefore leaves
the tree unmutated — the source's `tree.grow_tree` call is only on the
success path) exactly when no candidate splitting value remains: with
missing-data support enabled that means every routed row is NaN on the
selected predictor (vacuously including an empty routed set), and without it
that means the routed set is empty.  All-identical (non-missing) values are
not a no-growth case. -/
theorem grow_tree_abort_iff_no_candidates (X : ℕ → ℕ → Option ℚ)
    (missing_data : Bool) (idx_data_points : List ℕ)
    (selected_predictor split_draw : ℕ) :
    grow_tree X missing_data idx_data_points selected_predictor split_draw = none ↔
      (missing_data = true ∧ ∀ i ∈ idx_data_points, X i selected_predictor = none) ∨
        idx_data_points = [] := by
  rw [grow_tree_eq_none_iff]
  cases missing_data with
  | false => simp [List.length_eq_zero]
  | true =>
      simp only [if_true, eq_self_iff_true, List.length_eq_zero,
        List.filter_eq_nil_iff, true_and]
      constructor
      · intro h
        left
        intro i hi
        have := h (X i selected_predictor) (List.mem_map_of_mem _ hi)
        simpa using this
      · rintro (h | rfl)
        · intro v hv
          rcases List.mem_map.mp hv with ⟨i, hi, rfl⟩
          simp [h i hi]
        · simp

/-- Claim C3 counterexample: on a fully observed matrix whose every routed
row has the identical value 5 on the selected predictor, `grow_tree` does
grow — it returns a split (the whole routed set goes left, the right child
is empty) instead of the claimed `(false, no predictor)`. -/
theorem grow_tree_identical_values_grows :
    grow_tree Xconst false [0, 1] 0 0 = some ⟨some 5, [0, 1], [], 0⟩ ∧
      Xconst 0 0 = Xconst 1 0 := by
  constructor
  · simp [grow_tree, get_new_idx_data_points, npLe, Xconst, List.filter]
  · rfl

/-- Claim C1 (amended): a successful `grow_tree` partitions into the two new
leaves not the full routed row set but the routed rows that are non-missing
on the selected predictor: the children's row sets are disjoint and their
concatenation is a permutation of the missing-filtered routed set (the
source reassigns the local `idx_data_points` to its non-NaN subset before
calling `get_new_idx_data_points`, so NaN rows fall into neither child);
only when `missing_data` is off — i.e. the design matrix has no NaN at all —
is the union the full routed set. -/
theorem get_new_idx_data_points_partition (split_value : Option ℚ)
    (idx : List ℕ) (selected_predictor : ℕ) (X : ℕ → ℕ → Option ℚ) :
    (get_new_idx_data_points split_value idx selected_predictor X).1.Disjoint
        (get_new_idx_data_points split_value idx selected_predictor X).2 ∧
      ((get_new_idx_data_points split_value idx selected_predictor X).1 ++
        (get_new_idx_data_points split_value idx selected_predictor X).2).Perm idx := by
  constructor
  · intro a ha hb
    rcases List.mem_filter.mp ha with ⟨-, hpa⟩
    rcases List.mem_filter.mp hb with ⟨-, hna⟩
    rw [hpa] at hna
    simp at hna
  · exact List.filter_append_perm _ _

theorem grow_tree_partition (X : ℕ → ℕ → Option ℚ) (missing_data : Bool)
    (idx_data_points : List ℕ) (selected_predictor split_draw : ℕ)
    (g : GrowOutcome)
    (h : grow_tree X missing_data idx_data_points selected_predictor split_draw =
      some g) :
    g.left_idx.Disjoint g.right_idx ∧
      (g.left_idx ++ g.right_idx).Perm
        (if missing_data = true
         then idx_data_points.filter (fun i => (X i selected_predictor).isSome)
         else idx_data_points) ∧
      (missing_data = false → (g.left_idx ++ g.right_idx).Perm idx_data_points) := by
  cases missing_data with
  | true =>
      simp only [grow_tree, if_true, eq_self_iff_true] at h
      rw [if_pos rfl]
      split at h
      · exact absurd h (by simp)
      · rw [Option.some_inj] at h
        subst h
        obtain ⟨h1, h2⟩ := get_new_idx_data_points_partition
          (((idx_data_points.map fun i => X i selected_predictor).filter
            (fun v => v.isSome)).getD split_draw none)
          (idx_data_points.filter (fun i => (X i selected_predictor).isSome))
          selected_predictor X
        exact ⟨h1, h2, by intro hc; exact absurd hc (by simp)⟩
  | false =>
      simp only [grow_tree] at h
      rw [if_neg (by simp)]
      split at h
      · exact absurd ‹false = true› (by simp)
      · split at h
        · exact absurd h (by simp)
        · rw [Option.some_inj] at h
          subst h
          obtain ⟨h1, h2⟩ := get_new_idx_data_points_partition
            ((idx_data_points.map fun i => X i selected_predictor).getD split_draw none)
            idx_data_points selected_predictor X
          exact ⟨h1, h2, fun _ => h2⟩

/-- Claim C1 counterexample: with missing-data support on and a routed set
`[0, 1]` in which row 1 is NaN on the selected predictor, `grow_tree`
succeeds and produces children `[0]` and `[]`: row 1 was routed to the
expanded leaf but belongs to neither new leaf, so the two children do not
partition the full routed set. -/
theorem grow_tree_drops_missing_row :
    grow_tree Xmiss true [0, 1] 0 0 = some ⟨some 1, [0], [], 0⟩ ∧
      1 ∈ ([0, 1] : List ℕ) ∧ 1 ∉ ([0] : List ℕ) ∧ 1 ∉ ([] : List ℕ) := by
  decide

/-- Claim C1 witness: the partition theorem applied to a concrete fully
observed two-row matrix, where the two children are `[0]` and `[1]` and
together they do recover the whole routed set. -/
theorem grow_tree_partition_instance :
    List.Disjoint ([0] : List ℕ) [1] ∧
      (([0] : List ℕ) ++ [1]).Perm
        (if false = true then [0, 1].filter (fun i => (Xtwo i 0).isSome)
         else [0, 1]) ∧
      (false = false → (([0] : List ℕ) ++ [1]).Perm [0, 1]) :=
  grow_tree_partition Xtwo false [0, 1] 0 0 ⟨some 1, [0], [1], 0⟩ (by decide)

/-- Claim C4 (amended): the commit step sets the winner's log-weight to the
winner's `old_likelihood_logp` minus `log(num_particles)`.  For a winner
whose weight was last updated with `new = false` (a particle that grew
during the sweep) that field is the log-likelihood last evaluated at
`noi + prediction`, as the claim states; but for the reference particle 0 —
whose single `update_weight` call uses `new = true` and therefore leaves
`old_likelihood_logp` at the initialization value — the committed weight is
the stale initialization likelihood minus `log(num_particles)`, not its last
evaluated log-likelihood. -/
theorem commit_log_weight_uses_old_likelihood (p : ParticleTree) (L logP : ℚ) :
    (commit_log_weight logP (update_weight L false p)).log_weight = L - logP ∧
      (commit_log_weight logP (update_weight L true p)).log_weight =
        p.old_likelihood_logp - logP := by
  simp [commit_log_weight, update_weight]

/-- Claim C4 counterexample: a reference particle reset by `init_particles`
to initialization likelihood 0, whose sweep evaluation (`update_weight` with
`new = true`) records the freshly evaluated log-likelihood 1 in its
log-weight, commits to `0 - log P`, not to the claimed `1 - log P` (with
`log P = 0` here). -/
theorem commit_reference_particle_stale :
    ((commit_log_weight 0 (update_weight 1 true
        (init_particle_reset 3 0 ⟨[0], 5, 7, []⟩))).log_weight = 0 - 0) ∧
      (update_weight 1 true (init_particle_reset 3 0 ⟨[0], 5, 7, []⟩)).log_weight = 1 ∧
      (0 - 0 : ℚ) ≠ 1 - 0 := by
  refine ⟨?_, ?_, by norm_num⟩ <;>
    simp [commit_log_weight, update_weight, init_particle_reset]

/-- The fold building `non_available_nodes_for_expansion` appends one `0`
per nonempty queue. -/
theorem non_available_nodes_eq (qs : List (List ℕ)) :
    ∀ acc : List ℕ,
      qs.foldl (fun acc q => if q.isEmpty then acc else acc ++ [0]) acc =
        acc ++ (qs.filter (fun q => !q.isEmpty)).map (fun _ => (0 : ℕ)) := by
  induction qs with
  | nil => intro acc; simp
  | cons q rest ih =>
      intro acc
      rw [List.foldl_cons]
      by_cases hq : q.isEmpty
      · rw [if_pos hq, ih, List.filter_cons_of_neg]
        simp [hq]
      · rw [if_neg hq, ih (acc ++ [0]), List.filter_cons_of_pos]
        · simp
        · simp [hq]

/-- The break test `all(non_available_nodes_for_expansion)` is true exactly
when every inspected queue is empty: Python's `all` of an empty list is
`True`, and any appended element is the falsy `0`. -/
theorem pyAll_non_available (qs : List (List ℕ)) :
    pyAll (non_available_nodes_for_expansion qs) = true ↔ ∀ q ∈ qs, q = [] := by
  unfold non_available_nodes_for_expansion
  rw [non_available_nodes_eq qs []]
  simp only [List.nil_append, pyAll, List.all_eq_true]
  constructor
  · intro h' q hq
    by_contra hne
    have hq' : q ∈ qs.filter (fun q => !q.isEmpty) :=
      List.mem_filter.mpr ⟨hq, by simpa using hne⟩
    have := h' 0 (List.mem_map_of_mem _ hq')
    simp at this
  · intro h' x hx
    rcases List.mem_map.mp hx with ⟨q, hq, rfl⟩
    rcases List.mem_filter.mp hq with ⟨hmem, hne⟩
    have := h' q hmem
    simp [this] at hne

/-- Behaviour of one unrolling of the round loop, for the induction below. -/
theorem roundLoop_spec {σ : Type} (body : σ → σ) (stop : σ → Bool) :
    ∀ (fuel : ℕ) (s : σ),
      (roundLoop body stop fuel s).1 = body^[(roundLoop body stop fuel s).2] s ∧
      (roundLoop body stop fuel s).2 ≤ fuel ∧
      (∀ j, 1 ≤ j → j < (roundLoop body stop fuel s).2 → stop (body^[j] s) = false) ∧
      ((roundLoop body stop fuel s).2 < fuel →
        stop (body^[(roundLoop body stop fuel s).2] s) = true) := by
  intro fuel
  induction fuel with
  | zero => intro s; simp [roundLoop]
  | succ n ih =>
      intro s
      by_cases hstop : stop (body s) = true
      · have hres : roundLoop body stop (n + 1) s = (body s, 1) := by
          simp [roundLoop, hstop]
        rw [hres]
        refine ⟨by simp, by omega, ?_, ?_⟩
        · intro j h1 h2
          simp at h2
          omega
        · intro _
          simpa using hstop
      · have hs : stop (body s) = false := by simpa using hstop
        obtain ⟨ih1, ih2, ih3, ih4⟩ := ih (body s)
        have hres : roundLoop body stop (n + 1) s =
            ((roundLoop body stop n (body s)).1, (roundLoop body stop n (body s)).2 + 1) := by
          simp [roundLoop, hs]
        refine ⟨?_, ?_, ?_, ?_⟩
        · rw [hres]; simpa [Function.iterate_succ_apply] using ih1
        · rw [hres]; omega
        · rw [hres]
          intro j h1 h2
          match j, h1 with
          | 1, _ => simpa using hs
          | j + 2, _ =>
              have : 1 ≤ j + 1 := by omega
              have hlt : j + 1 < (roundLoop body stop n (body s)).2 := by omega
              simpa [Function.iterate_succ_apply] using ih3 (j + 1) this hlt
        · rw [hres]
          intro hlt
          have : (roundLoop body stop n (body s)).2 < n := by omega
          simpa [Function.iterate_succ_apply] using ih4 this

/-- Claim C7: the SMC round loop of `astep` stops early exactly when every
particle except particle 0 has an empty expansion queue (first conjunct:
the source's `all(...)`-of-appended-zeros break test is equivalent to that
emptiness), and the loop-with-break runs its body at most `max_stages`
times, never breaks at a round whose check fails, and when it exits early
the stop condition holds at the state it returns (second conjunct). -/
theorem astep_stop_condition_spec :
    (∀ particles : List ParticleTree,
        stop_early particles = true ↔
          ∀ p ∈ particles.drop 1, p.expansion_nodes = []) ∧
      ∀ (σ : Type) (body : σ → σ) (stop : σ → Bool) (fuel : ℕ) (s : σ),
        (roundLoop body stop fuel s).1 = body^[(roundLoop body stop fuel s).2] s ∧
        (roundLoop body stop fuel s).2 ≤ fuel ∧
        (∀ j, 1 ≤ j → j < (roundLoop body stop fuel s).2 → stop (body^[j] s) = false) ∧
        ((roundLoop body stop fuel s).2 < fuel →
          stop (body^[(roundLoop body stop fuel s).2] s) = true) := by
  constructor
  · intro particles
    unfold stop_early
    rw [pyAll_non_available]
    constructor
    · intro h p hp
      exact h p.expansion_nodes (List.mem_map_of_mem _ hp)
    · intro h q hq
      rcases List.mem_map.mp hq with ⟨p, hp, rfl⟩
      exact h p hp
  · intro σ body stop fuel s
    exact roundLoop_spec body stop fuel s

/-- For `0 < alpha < 1` every appended entry `1 - alpha ^ depth` is below 1,
so the loop guard always holds and the loop runs through its whole budget,
appending exactly the tail of entries `1 - alpha ^ d`. -/
theorem priorLoop_run (alpha : ℚ) (h0 : 0 < alpha) :
    ∀ (fuel depth : ℕ) (acc : List ℚ), acc.getLastD 0 < 1 →
      priorLoop alpha fuel depth acc =
        acc ++ (List.range' depth fuel).map (fun d => 1 - alpha ^ d) := by
  intro fuel
  induction fuel with
  | zero => intro depth acc hacc; simp [priorLoop]
  | succ n ih =>
      intro depth acc hacc
      have hlast : (acc ++ [1 - alpha ^ depth]).getLastD 0 < 1 := by
        rw [List.getLastD_concat]
        have := pow_pos h0 depth
        linarith
      rw [priorLoop, if_pos hacc, ih (depth + 1) _ hlast, List.append_assoc,
        List.range'_succ]
      simp

/-- Closed form of the prior-leaf-probability table for `0 < alpha < 1`. -/
theorem compute_prior_probability_eq (alpha : ℚ) (fuel : ℕ) (h0 : 0 < alpha) :
    compute_prior_probability alpha fuel =
      0 :: (List.range' 1 fuel).map (fun d => 1 - alpha ^ d) := by
  unfold compute_prior_probability
  rw [priorLoop_run alpha h0 fuel 1 [0] (by norm_num)]
  simp

/-- Claim C9: the table built by `compute_prior_probability` has entry 0
equal to 0, entry `d ≥ 1` equal to `1 - alpha ^ d`, and is non-decreasing
for every branching-decay parameter `alpha` in (0, 1) — stated for the
fuel-capped embedding of the loop, for every budget. -/
theorem compute_prior_probability_spec (alpha : ℚ) (fuel : ℕ)
    (h0 : 0 < alpha) (h1 : alpha < 1) :
    (compute_prior_probability alpha fuel).getD 0 0 = 0 ∧
      (∀ d, 1 ≤ d → d < (compute_prior_probability alpha fuel).length →
        (compute_prior_probability alpha fuel).getD d 0 = 1 - alpha ^ d) ∧
      (∀ d, d + 1 < (compute_prior_probability alpha fuel).length →
        (compute_prior_probability alpha fuel).getD d 0 ≤
          (compute_prior_probability alpha fuel).getD (d + 1) 0) := by
  rw [compute_prior_probability_eq alpha fuel h0]
  have hlen : (0 :: (List.range' 1 fuel).map (fun d => 1 - alpha ^ d)).length =
      fuel + 1 := by simp
  have hentry : ∀ d, 1 ≤ d → d < fuel + 1 →
      (0 :: (List.range' 1 fuel).map (fun d => 1 - alpha ^ d)).getD d 0 =
        1 - alpha ^ d := by
    intro d hd1 hdlen
    obtain ⟨e, rfl⟩ : ∃ e, d = e + 1 := ⟨d - 1, by omega⟩
    have he : e < fuel := by omega
    rw [List.getD_cons_succ]
    rw [List.getD_eq_getElem _ _ (by simpa using he)]
    simp [List.getElem_range', Nat.add_comm 1 e]
  refine ⟨rfl, ?_, ?_⟩
  · intro d hd1 hdlen
    exact hentry d hd1 (by simpa using hdlen)
  · intro d hdlen
    rw [hlen] at hdlen
    rcases Nat.eq_zero_or_pos d with rfl | hd
    · rw [List.getD_cons_zero, hentry 1 le_rfl (by omega)]
      have : alpha ^ 1 ≤ 1 := by simpa using le_of_lt h1
      linarith
    · rw [hentry d hd (by omega), hentry (d + 1) (by omega) (by omega)]
      have hpow : alpha ^ (d + 1) ≤ alpha ^ d :=
        pow_le_pow_of_le_one (le_of_lt h0) (le_of_lt h1) (by omega)
      linarith

/-- In exact arithmetic the loop guard of `compute_prior_probability` never
fails for `0 < alpha < 1`: every table entry stays strictly below 1, so the
source loop's termination rests entirely on floating-point rounding of
`alpha ** depth` to zero (at which point `1 - alpha ** depth` evaluates to
exactly 1.0 and the `while` condition goes false). -/
theorem compute_prior_probability_entries_lt_one (alpha : ℚ) (fuel : ℕ)
    (h0 : 0 < alpha) (h1 : alpha < 1) :
    ∀ x ∈ compute_prior_probability alpha fuel, x < 1 := by
  rw [compute_prior_probability_eq alpha fuel h0]
  intro x hx
  rcases List.mem_cons.mp hx with rfl | hx2
  · norm_num
  · rcases List.mem_map.mp hx2 with ⟨d, -, rfl⟩
    have := pow_pos h0 d
    linarith

/-- Claim C9 witness: the table theorem instantiated at `alpha = 1/2` with a
budget of two loop iterations. -/
theorem compute_prior_probability_spec_instance :
    (compute_prior_probability (1 / 2) 2).getD 0 0 = 0 ∧
      (∀ d, 1 ≤ d → d < (compute_prior_probability (1 / 2) 2).length →
        (compute_prior_probability (1 / 2) 2).getD d 0 = 1 - (1 / 2 : ℚ) ^ d) ∧
      (∀ d, d + 1 < (compute_prior_probability (1 / 2) 2).length →
        (compute_prior_probability (1 / 2) 2).getD d 0 ≤
          (compute_prior_probability (1 / 2) 2).getD (d + 1) 0) :=
  compute_prior_probability_spec (1 / 2) 2 (by norm_num) (by norm_num)

/-- Dividing each weight by a nonzero sum stays in the finite fragment of
the extended floats. -/
theorem divEF_fin (a s : ℚ) (hs : s ≠ 0) :
    EF.div (.fin a) (.fin s) = .fin (a / s) := by
  simp [EF.div, hs]

/-- Cumulative sums of finite values are the finite image of the exact
cumulative sums. -/
theorem cumsumEF_from_fin (l : List ℚ) :
    ∀ acc : ℚ, cumsumEF_from (.fin acc) (l.map EF.fin) =
      (cumsumQ_from acc l).map EF.fin := by
  induction l with
  | nil => intro acc; simp [cumsumEF_from, cumsumQ_from]
  | cons x xs ih =>
      intro acc
      simp only [List.map_cons, cumsumEF_from, cumsumQ_from, EF.add]
      rw [ih (acc + x)]

/-- The running sums of a list have the same length as the list. -/
theorem cumsumQ_from_length (l : List ℚ) :
    ∀ acc : ℚ, (cumsumQ_from acc l).length = l.length := by
  induction l with
  | nil => intro acc; rfl
  | cons x xs ih => intro acc; simp [cumsumQ_from, ih]

/-- The accumulator plus the whole sum is a member of the running sums of a
nonempty list (it is the final entry). -/
theorem cumsumQ_from_last_mem (l : List ℚ) :
    ∀ acc : ℚ, l ≠ [] → (acc + l.sum) ∈ cumsumQ_from acc l := by
  induction l with
  | nil => intro acc h; exact absurd rfl h
  | cons x xs ih =>
      intro acc _
      rcases List.eq_nil_or_concat xs with rfl | -
      · simp [cumsumQ_from]
      · by_cases hxs : xs = []
        · subst hxs; simp [cumsumQ_from]
        · have := ih (acc + x) hxs
          simp only [cumsumQ_from, List.sum_cons, List.mem_cons]
          right
          rw [show acc + (x + xs.sum) = acc + x + xs.sum by ring]
          exact this

/-- Summing after dividing every entry by `s` is dividing the sum by `s`. -/
theorem sum_map_div (l : List ℚ) (s : ℚ) :
    (l.map (fun a => a / s)).sum = l.sum / s := by
  induction l with
  | nil => simp
  | cons x xs ih => simp [ih, add_div]

/-- The scan of `rvs` over finite cumulative values returns the first index
(offset by the enumeration start) whose value is at least `r`, together
with the strictness of everything before it. -/
theorem rvsLoop_min (r : ℚ) (cdf : List ℚ) :
    ∀ k : ℕ, (∃ c ∈ cdf, r ≤ c) →
      ∃ j, j < cdf.length ∧
        rvsLoop r ((cdf.map EF.fin).enumFrom k) = some (k + j) ∧
        r ≤ cdf.getD j 0 ∧
        ∀ j2, j2 < j → cdf.getD j2 0 < r := by
  induction cdf with
  | nil => intro k h; simp at h
  | cons c rest ih =>
      intro k h
      by_cases hc : r ≤ c
      · refine ⟨0, by simp, ?_, by simpa using hc, by omega⟩
        simp [rvsLoop, EF.le, hc]
      · have hex : ∃ x ∈ rest, r ≤ x := by
          rcases h with ⟨x, hx, hrx⟩
          rcases List.mem_cons.mp hx with rfl | hx2
          · exact absurd hrx hc
          · exact ⟨x, hx2, hrx⟩
        obtain ⟨j, hj1, hj2, hj3, hj4⟩ := ih (k + 1) hex
        refine ⟨j + 1, by simpa using hj1, ?_, by simpa using hj3, ?_⟩
        · have hstep : rvsLoop r (((c :: rest).map EF.fin).enumFrom k) =
              rvsLoop r ((rest.map EF.fin).enumFrom (k + 1)) := by
            simp [rvsLoop, EF.le, hc]
          rw [hstep, hj2]
          congr 1
          omega
        · intro j2 hlt
          cases j2 with
          | zero =>
              simp only [List.getD_cons_zero]
              exact lt_of_not_le hc
          | succ e =>
              have := hj4 e (by omega)
              simpa using this

/-- Claim C8: for a nonnegative weight vector with positive sum and any
uniform draw `r` in [0, 1), `SampleSplittingVariable.rvs` returns `some i`
where `i` is the smallest index whose cumulative probability
`cdf[i] = sum(w[0..i]) / sum(w)` is at least `r`; in particular the scan
never falls off the end of the table (the final cumulative value is exactly
1 in exact arithmetic, and `r < 1`). -/
theorem SampleSplittingVariable_rvs_spec (w : List ℚ) (r : ℚ)
    (hw : ∀ a ∈ w, 0 ≤ a) (hs : 0 < w.sum) (hr0 : 0 ≤ r) (hr1 : r < 1) :
    ∃ i, (SampleSplittingVariable.init w).rvs r = some i ∧
      i < w.length ∧
      r ≤ (cumsumQ (w.map (fun a => a / w.sum))).getD i 0 ∧
      ∀ j, j < i → (cumsumQ (w.map (fun a => a / w.sum))).getD j 0 < r := by
  have hsne : w.sum ≠ 0 := ne_of_gt hs
  have hwne : w ≠ [] := by
    intro hnil
    rw [hnil] at hs
    simp at hs
  have henu : (SampleSplittingVariable.init w).rvs r =
      rvsLoop r (((cumsumQ (w.map (fun a => a / w.sum))).map EF.fin).enumFrom 0) := by
    unfold SampleSplittingVariable.rvs SampleSplittingVariable.init
    have hmap : w.map (fun a => EF.div (.fin a) (.fin w.sum)) =
        (w.map (fun a => a / w.sum)).map EF.fin := by
      rw [List.map_map]
      exact List.map_congr_left fun a _ => divEF_fin a w.sum hsne
    rw [hmap]
    unfold cumsumEF cumsumQ
    rw [cumsumEF_from_fin]
    rfl
  have hlast : (1 : ℚ) ∈ cumsumQ (w.map (fun a => a / w.sum)) := by
    have hmem := cumsumQ_from_last_mem (w.map (fun a => a / w.sum)) 0
      (by simpa using hwne)
    rw [sum_map_div, div_self hsne] at hmem
    simpa using hmem
  obtain ⟨j, hj1, hj2, hj3, hj4⟩ := rvsLoop_min r (cumsumQ (w.map (fun a => a / w.sum))) 0
    ⟨1, hlast, le_of_lt hr1⟩
  refine ⟨j, ?_, ?_, hj3, hj4⟩
  · rw [henu, hj2]
    simp
  · have := cumsumQ_from_length (w.map (fun a => a / w.sum)) 0
    unfold cumsumQ at hj1
    rw [this] at hj1
    simpa using hj1

/-- Claim C8 witness: with weights `[3, 1]` and draw `9/10`, the sampler
returns index 1 — the first cumulative probability at least `9/10` — and
the cumulative value before it is below the draw. -/
theorem SampleSplittingVariable_rvs_spec_instance :
    ∃ i, (SampleSplittingVariable.init [3, 1]).rvs (9 / 10) = some i ∧
      i < ([3, 1] : List ℚ).length ∧
      (9 / 10 : ℚ) ≤
        (cumsumQ (([3, 1] : List ℚ).map
          (fun a => a / ([3, 1] : List ℚ).sum))).getD i 0 ∧
      ∀ j, j < i →
        (cumsumQ (([3, 1] : List ℚ).map
          (fun a => a / ([3, 1] : List ℚ).sum))).getD j 0 < 9 / 10 :=
  SampleSplittingVariable_rvs_spec [3, 1] (9 / 10)
    (by intro a ha; rcases List.mem_cons.mp ha with rfl | ha2; · norm_num
        · rcases List.mem_cons.mp ha2 with rfl | ha3; · norm_num
          · simp at ha3)
    (by norm_num) (by norm_num) (by norm_num)

/-- Shifting every exponent by the max factors out of the sum of
exponentials. -/
theorem sum_exp_sub (l : List ℝ) (M : ℝ) :
    (l.map (fun x => Real.exp (x - M))).sum = (l.map Real.exp).sum / Real.exp M := by
  induction l with
  | nil => simp
  | cons x xs ih =>
      simp only [List.map_cons, List.sum_cons]
      rw [ih, Real.exp_sub, add_div]

/-- Summing after dividing by `c` and nudging by `e` splits into the divided
sum plus `length` times the nudge. -/
theorem sum_map_div_add (l : List ℝ) (c e : ℝ) :
    (l.map (fun x => x / c + e)).sum = l.sum / c + l.length * e := by
  induction l with
  | nil => simp
  | cons x xs ih =>
      simp only [List.map_cons, List.sum_cons, ih, List.length_cons]
      push_cast
      rw [add_div]
      ring

/-- Claim C6: for every nonempty log-weight vector (a list of reals models
finite, non-`-inf` floats), `normalize` returns `W_t` equal to the
log-sum-exp of the inputs minus `log(num_particles)`, and normalized
weights summing to exactly `1 + n * 1e-12` — the per-entry `1e-12`
stabilization is the only deviation from 1, which is the claim's "within
floating tolerance". -/
theorem PGBART_normalize_spec (log_num_particles : ℝ) (log_w : List ℝ)
    (h : log_w ≠ []) :
    (PGBART.normalize log_num_particles log_w).1 =
      Real.log ((log_w.map Real.exp).sum) - log_num_particles ∧
      ((PGBART.normalize log_num_particles log_w).2).sum =
        1 + log_w.length * (1 / 10 ^ 12) := by
  have hpos : 0 < (log_w.map Real.exp).sum := by
    refine List.sum_pos _ ?_ (by simpa using h)
    intro a ha
    rcases List.mem_map.mp ha with ⟨x, -, rfl⟩
    exact Real.exp_pos x
  have hsub := sum_exp_sub log_w (npMax log_w)
  have hwpos : 0 < (log_w.map (fun x => Real.exp (x - npMax log_w))).sum := by
    rw [hsub]
    exact div_pos hpos (Real.exp_pos _)
  constructor
  · simp only [PGBART.normalize]
    rw [hsub, Real.log_div (ne_of_gt hpos) (Real.exp_ne_zero _), Real.log_exp]
    ring
  · simp only [PGBART.normalize]
    rw [sum_map_div_add, div_self (ne_of_gt hwpos)]
    simp

/-- Claim C6 witness: `normalize` at the one-element log-weight vector `[0]`
with `log(num_particles) = 0`. -/
theorem PGBART_normalize_spec_instance :
    (PGBART.normalize 0 [0]).1 = Real.log ((([0] : List ℝ).map Real.exp).sum) - 0 ∧
      ((PGBART.normalize 0 [0]).2).sum = 1 + ([0] : List ℝ).length * (1 / 10 ^ 12) :=
  PGBART_normalize_spec 0 [0] (by simp)

/-- Every entry of `EF.add acc x` with a NaN operand is NaN. -/
theorem EF_add_nan (acc : EF) : acc.add .nan = .nan := by
  cases acc <;> rfl

/-- Cumulative sums of an all-NaN list are all NaN. -/
theorem cumsumEF_from_all_nan (l : List EF) :
    ∀ acc : EF, (∀ x ∈ l, x = EF.nan) →
      ∀ y ∈ cumsumEF_from acc l, y = EF.nan := by
  induction l with
  | nil => intro acc _ y hy; simp [cumsumEF_from] at hy
  | cons x xs ih =>
      intro acc hall y hy
      have hx : x = EF.nan := hall x (by simp)
      subst hx
      rcases List.mem_cons.mp hy with rfl | hy2
      · exact EF_add_nan acc
      · exact ih (acc.add .nan) (fun z hz => hall z (by simp [hz])) y hy2

/-- The scan of `rvs` over an all-NaN table falls off the end: every
comparison against NaN is false. -/
theorem rvsLoop_all_nan (r : ℚ) (enu : List (ℕ × EF)) :
    (∀ e ∈ enu, e.2 = EF.nan) → rvsLoop r enu = none := by
  induction enu with
  | nil => intro _; rfl
  | cons e rest ih =>
      intro hall
      obtain ⟨i, v⟩ := e
      have hv : v = EF.nan := hall (i, v) (by simp)
      subst hv
      simpa [rvsLoop, EF.le] using ih fun z hz => hall z (by simp [hz])

/-- Claim C5 (amended): `PGBART.__init__` validates nothing — its body
contains no raise and no assert — so a nonpositive particle count, a
zero-sum predictor-weight vector, and empty training data are all accepted:
construction completes without a fatal error, merely producing degenerate
state — `log(0) = -inf` as the particle-count normalizer with an empty
resampling index list, an all-NaN splitting cdf whose `rvs` then returns no
index at all, and a NaN response mean.  Failures, if any, surface only later
during sampling. -/
theorem PGBART_init_no_validation (log_fn : ℤ → EF) (std_fn : List ℚ → EF)
    (sqrt_fn : ℕ → EF) (cfg : InitConfig) :
    ∃ st, PGBART.init log_fn std_fn sqrt_fn cfg = Except.ok st ∧
      (cfg.num_particles = 0 → log_fn 0 = EF.ninf →
        st.log_num_particles = EF.ninf ∧ st.indices = []) ∧
      ((∀ a ∈ cfg.alpha_vec, a = 0) →
        (∀ e ∈ st.ssv.enu, e.2 = EF.nan) ∧ ∀ r : ℚ, st.ssv.rvs r = none) ∧
      (cfg.Y = [] → st.init_mean = EF.nan) := by
  refine ⟨_, rfl, ?_, ?_, ?_⟩
  · intro h0 hlog
    constructor
    · simpa [PGBART.init, h0] using hlog
    · simp [PGBART.init, h0, rangeZ]
  · intro hzero
    have hsum : cfg.alpha_vec.sum = 0 := List.sum_eq_zero hzero
    have hmap : ∀ x ∈ cfg.alpha_vec.map
        (fun a => EF.div (.fin a) (.fin cfg.alpha_vec.sum)), x = EF.nan := by
      intro x hx
      rcases List.mem_map.mp hx with ⟨a, ha, rfl⟩
      simp [EF.div, hsum, hzero a ha]
    have hnan : ∀ y ∈ cumsumEF (cfg.alpha_vec.map
        (fun a => EF.div (.fin a) (.fin cfg.alpha_vec.sum))), y = EF.nan :=
      cumsumEF_from_all_nan _ _ hmap
    have henu : ∀ e ∈ (SampleSplittingVariable.init cfg.alpha_vec).enu,
        e.2 = EF.nan := by
      intro e he
      refine hnan e.2 ?_
      have : e.2 ∈ ((cumsumEF (cfg.alpha_vec.map
          (fun a => EF.div (.fin a) (.fin cfg.alpha_vec.sum)))).enum).map Prod.snd :=
        List.mem_map_of_mem _ he
      simpa [List.enum_map_snd] using this
    exact ⟨henu, fun r => rvsLoop_all_nan r _ henu⟩
  · intro hY
    simp [PGBART.init, meanEF, hY]

/-- Claim C5 counterexample: the concrete configuration combining all three
defects — zero particles, the zero weight vector `[0, 0]`, and empty
training data — is accepted by construction: the embedded `__init__`
returns `ok` (no fatal error), with `-inf` for `log(num_particles)`, NaN
response mean and noise scale, an all-NaN splitting cdf, and a sampler whose
`rvs` returns no index. -/
theorem PGBART_init_accepts_degenerate :
    PGBART.init logStub stdStub sqrtStub ⟨[], [], 1, 1, 0, [0, 0]⟩ =
      Except.ok ⟨false, EF.nan, EF.nan, 0, 0, EF.ninf, [],
        ⟨[(0, EF.nan), (1, EF.nan)]⟩⟩ ∧
      SampleSplittingVariable.rvs ⟨[(0, EF.nan), (1, EF.nan)]⟩ (1 / 2) = none := by
  constructor
  · simp [PGBART.init, meanEF, npUnique, rangeZ, SampleSplittingVariable.init,
      cumsumEF, cumsumEF_from, EF.div, EF.mul, EF.add, logStub, stdStub, sqrtStub,
      List.enum]
  · simp [SampleSplittingVariable.rvs, rvsLoop, EF.le]

end Pgbart

